import Mathlib

/-!
Verification of the bounded-concurrency streaming pipeline in
`src/articles/nodejs/breaking-backpressure/main.ts` (the compiled copy in
`src/unnamed/part_000` is the same program).

The program runs on the single-threaded JavaScript event loop, so its
behaviour is a sequence of atomic synchronous blocks separated by suspension
points (`await`, event emission, timer callbacks).  We embed it as a
small-step state machine: each constructor of the action type below is one
such atomic block, and a scheduler (an action list) chooses the interleaving.

Two machines are defined:

* `Semaphoreish` / `gstep`: the admission gate on its own, exercised by
  arbitrary clients (used for the gate-level claims);
* `CT` / `tstep`: the `ConcurrentTransform` stage wired to the gate the way
  `main.ts` wires it, including the serialisation imposed by the Node stream
  machinery (`_transform` is invoked for the next chunk only after the
  previous invocation has called its stream callback) and the fact that
  `push` either emits a synchronous `data` event (flowing mode, empty
  readable buffer) or buffers the chunk for a later flush.
-/

namespace Backpressure

/-- State of `Semaphoreish` (main.ts lines 46-84), plus bookkeeping that makes
the temporal claims statable.  `running` mirrors `_running` — the code
decrements it unconditionally in `release()`, so it is an `Int`.  `size`
mirrors `_size`.  `resolvers` mirrors the FIFO array `_resolvers`, holding the
ids of clients suspended inside `acquire()`.  `woken` holds clients whose
resolver has been invoked by `release()` but whose continuation (the code
after the `await` on main.ts line 66-68, i.e. `this._running++`) has not run
yet; JavaScript runs those continuations as FIFO microtasks, so it is a FIFO
list.  `admitted` logs, in order, the clients whose `acquire()` has completed
(incremented `running` and returned to the caller). -/
structure Semaphoreish where
  running : Int
  size : Nat
  resolvers : List Nat
  woken : List Nat
  admitted : List Nat
deriving DecidableEq

/-- `new Semaphoreish(size)` (main.ts lines 51-53). -/
def Semaphoreish.init (size : Nat) : Semaphoreish :=
  { running := 0, size := size, resolvers := [], woken := [], admitted := [] }

/-- Atomic blocks of gate clients.  `acquire c` is client `c` calling
`acquire()` and running it up to its first suspension point (for the fast
path that is the whole body).  `release` is a call to `release()` (the whole
body is synchronous).  `resume` is the event loop running the continuation of
the longest-woken suspended acquirer (`this._running++` after the `await`). -/
inductive GAct where
  | acquire (c : Nat)
  | release
  | resume
deriving DecidableEq

/-- One atomic block of the gate, from main.ts lines 63-83.
`acquire c`: if `_running >= _size` the caller pushes its resolver and
suspends, otherwise it increments `_running` and returns.  `release`:
decrements `_running`, then shifts the oldest resolver and invokes it (which
only schedules the waiter's continuation — the waiter increments `_running`
later, in a `resume` step).  `resume` is enabled only for a woken waiter. -/
def gstep (s : Semaphoreish) : GAct → Option Semaphoreish
  | .acquire c =>
    if s.running < (s.size : Int) then
      some { s with running := s.running + 1, admitted := s.admitted ++ [c] }
    else
      some { s with resolvers := s.resolvers ++ [c] }
  | .release =>
    match s.resolvers with
    | w :: rest =>
      some { s with running := s.running - 1, resolvers := rest,
                    woken := s.woken ++ [w] }
    | [] => some { s with running := s.running - 1 }
  | .resume =>
    match s.woken with
    | w :: rest =>
      some { s with running := s.running + 1, woken := rest,
                    admitted := s.admitted ++ [w] }
    | [] => none

/-- Run the gate under a schedule (a list of atomic blocks). -/
def grun (s : Semaphoreish) : List GAct → Option Semaphoreish
  | [] => some s
  | a :: rest =>
    match gstep s a with
    | some s1 => grun s1 rest
    | none => none

/-- A schedule step is barge-free when it does not start a fresh `acquire`
while some woken waiter has not yet resumed.  This is exactly the discipline
the enclosing pipeline imposes on the gate: the only acquirer is
`_transform`, and the stream machinery does not invoke `_transform` again
until the previous invocation has called its callback, which happens after
the woken waiter's continuation has run. -/
def bargeFree (s : Semaphoreish) : GAct → Bool
  | .acquire _ => s.woken.isEmpty
  | _ => true

/-- Run the gate under a schedule, refusing barging schedules. -/
def grunNB (s : Semaphoreish) : List GAct → Option Semaphoreish
  | [] => some s
  | a :: rest =>
    if bargeFree s a then
      match gstep s a with
      | some s1 => grunNB s1 rest
      | none => none
    else none

/-- State of the `ConcurrentTransform` stage (main.ts lines 86-125) wired
into the pipeline, with the gate (`running`, `resolvers`, `woken`) inlined.
Chunks are identified by their `id` field (a `Nat`).  The remaining fields
partition the chunks by where they are in the stage:

* `pending`: produced by the source but not yet handed to `_transform`;
* `acquiredNoCb`: the (at most one) chunk whose `acquire()` has resolved but
  whose `_transform` continuation (which calls the stream callback) has not
  run yet;
* `working`: chunks whose stream callback has been called and whose
  `work(chunk.id)` is outstanding;
* `buffer`: chunks pushed into the readable buffer, `data` not yet emitted;
* `delivered`: chunks whose `data` event has fired (released the gate and
  been handed to the piped sink), in emission order;
* `accepted`: log of chunks handed to `_transform`, in acceptance order;
* `onFinalSet`: whether `_final` has stored its callback in `onFinal`
  (main.ts lines 101-105; the code never clears it);
* `finalCalls`: how many times `this.onFinal()` has been invoked by
  `_checkDone` (main.ts lines 107-112). -/
structure CT where
  size : Nat
  running : Int
  resolvers : List Nat
  woken : List Nat
  pending : List Nat
  acquiredNoCb : Option Nat
  working : List Nat
  buffer : List Nat
  delivered : List Nat
  accepted : List Nat
  onFinalSet : Bool
  finalCalls : Nat
deriving DecidableEq

/-- A fresh transform stage over a source that will produce `items`:
`new ConcurrentTransform()` with gate capacity `readableHighWaterMark`
(main.ts lines 90-99). -/
def CT.init (size : Nat) (items : List Nat) : CT :=
  { size := size, running := 0, resolvers := [], woken := [],
    pending := items, acquiredNoCb := none, working := [], buffer := [],
    delivered := [], accepted := [], onFinalSet := false, finalCalls := 0 }

/-- `_checkDone` (main.ts lines 107-112): if `running === 0` and `onFinal`
has been trapped, invoke the completion callback.  `onFinal` is not cleared
afterwards. -/
def checkDone (s : CT) : CT :=
  if s.running = 0 ∧ s.onFinalSet = true then
    { s with finalCalls := s.finalCalls + 1 }
  else s

/-- The gate's `release()` as called from the stage's `data` handler
(main.ts lines 77-83): decrement `running` and wake the oldest waiter. -/
def ctRelease (s : CT) : CT :=
  match s.resolvers with
  | w :: rest =>
    { s with running := s.running - 1, resolvers := rest,
             woken := s.woken ++ [w] }
  | [] => { s with running := s.running - 1 }

/-- A `data` event for chunk `x` (main.ts lines 95-98): the stage's own
handler runs `release()` then `_checkDone()`, and the pipe's handler delivers
the chunk to the sink.  All of this is one synchronous block. -/
def dataEvent (s : CT) (x : Nat) : CT :=
  checkDone { (ctRelease s) with delivered := (ctRelease s).delivered ++ [x] }

/-- Atomic blocks of the transform stage under the event loop:

* `start`: the stream machinery hands the next chunk to `_transform`
  (main.ts line 114-119), which runs `acquire()` up to its outcome.  The
  machinery only does this when no earlier `_transform` invocation is still
  before its `callback()` — i.e. no chunk is suspended in the gate or
  awaiting its post-`acquire` continuation.
* `resumeGate`: the woken waiter's continuation runs (`this._running++`).
* `cb`: the continuation of `await this._semaphore.acquire()` runs
  `callback()` (main.ts line 120), starting the worker.
* `settle x emitNow`: `work(x)` settles; `_transform` resumes at main.ts
  line 122: `this.push(...)` either emits a synchronous `data` event
  (flowing readable with an empty buffer: `emitNow = true`) or appends to
  the readable buffer; then line 123 runs `this._checkDone()`.
* `flow`: the readable side flushes the oldest buffered chunk as a `data`
  event (downstream consumed an item and the stream resumed flowing).
* `finalize`: the writable side of the stage finished (source exhausted and
  every `_transform` has called its callback), so the machinery calls
  `_final`, which traps the callback and runs `_checkDone` (lines 101-105).
-/
inductive TAct where
  | start
  | resumeGate
  | cb
  | settle (x : Nat) (emitNow : Bool)
  | flow
  | finalize
deriving DecidableEq

/-- One atomic block of the pipeline-wired transform stage. -/
def tstep (s : CT) : TAct → Option CT
  | .start =>
    match s.pending with
    | [] => none
    | x :: rest =>
      if s.acquiredNoCb = none ∧ s.resolvers = [] ∧ s.woken = [] then
        let s1 := { s with pending := rest, accepted := s.accepted ++ [x] }
        if s1.running < (s1.size : Int) then
          some { s1 with running := s1.running + 1, acquiredNoCb := some x }
        else
          some { s1 with resolvers := s1.resolvers ++ [x] }
      else none
  | .resumeGate =>
    match s.woken with
    | w :: rest =>
      some { s with woken := rest, running := s.running + 1,
                    acquiredNoCb := some w }
    | [] => none
  | .cb =>
    match s.acquiredNoCb with
    | some x =>
      some { s with acquiredNoCb := none, working := s.working ++ [x] }
    | none => none
  | .settle x emitNow =>
    if x ∈ s.working then
      let s1 := { s with working := s.working.erase x }
      if emitNow then
        if s1.buffer = [] then some (checkDone (dataEvent s1 x)) else none
      else
        some (checkDone { s1 with buffer := s1.buffer ++ [x] })
    else none
  | .flow =>
    match s.buffer with
    | x :: rest => some (dataEvent { s with buffer := rest } x)
    | [] => none
  | .finalize =>
    if s.pending = [] ∧ s.acquiredNoCb = none ∧ s.resolvers = [] ∧
        s.woken = [] ∧ s.onFinalSet = false then
      some (checkDone { s with onFinalSet := true })
    else none

/-- Run the transform stage under a schedule. -/
def tRun (s : CT) : List TAct → Option CT
  | [] => some s
  | a :: rest =>
    match tstep s a with
    | some s1 => tRun s1 rest
    | none => none

/-- All chunks currently anywhere in the stage, stage-position by
stage-position. -/
def itemsOf (s : CT) : List Nat :=
  s.pending ++ s.resolvers ++ s.woken ++ s.acquiredNoCb.toList ++ s.working ++
    s.buffer ++ s.delivered

/-- The stage invariant: chunks are conserved (the stage's contents are a
permutation of the source items, and so are `accepted ++ pending`); the gate
counter equals the number of chunks that hold a slot — those past their
`acquire` but not yet past their `data` event; and the stream machinery's
serialisation keeps at most one chunk between entering `_transform` and its
`callback()`. -/
def Inv (items : List Nat) (s : CT) : Prop :=
  List.Perm (itemsOf s) items ∧
  List.Perm (s.accepted ++ s.pending) items ∧
  s.running = ((s.acquiredNoCb.toList.length + s.working.length +
    s.buffer.length : Nat) : Int) ∧
  s.resolvers.length + s.woken.length + s.acquiredNoCb.toList.length ≤ 1

/-- Final state of the concrete completed run used to witness the
conservation theorem. -/
def c4FinalState : CT :=
  { size := 1, running := 0, resolvers := [], woken := [],
    pending := [], acquiredNoCb := none, working := [], buffer := [],
    delivered := [3, 4], accepted := [3, 4], onFinalSet := true,
    finalCalls := 1 }

/-- Pre-callback state used to witness the event-order theorem: chunk 5 has
its `acquire` resolved but its callback not yet run. -/
def c7Pre : CT :=
  { size := 1, running := 1, resolvers := [], woken := [],
    pending := [], acquiredNoCb := some 5, working := [], buffer := [],
    delivered := [], accepted := [5], onFinalSet := false, finalCalls := 0 }

/-- State after the `cb` step from `c7Pre`. -/
def c7Post : CT :=
  { size := 1, running := 1, resolvers := [], woken := [],
    pending := [], acquiredNoCb := none, working := [5], buffer := [],
    delivered := [], accepted := [5], onFinalSet := false, finalCalls := 0 }

/-- JavaScript object lookup on a property list, later definitions winning —
the semantics of an object literal built left to right, so the lookup
recurses on the tail first. -/
def getField : List (String × Int) → String → Option Int
  | [], _ => none
  | (k, v) :: rest, key =>
    match getField rest key with
    | some w => some w
    | none => if k = key then some v else none

/-- The spread on main.ts line 122: the enriched chunk lists every property
of the accepted chunk and then `changedAt` bound to the worker's result
(overriding any earlier binding of that name, as the spread does). -/
def enrich (chunk : List (String × Int)) (w : Int) : List (String × Int) :=
  chunk ++ [("changedAt", w)]

/-- A record yielded by the source generator (main.ts line 16): an object
with a single numeric `id`. -/
structure Item where
  id : Nat
deriving DecidableEq

/-- The `generate` loop of main.ts lines 12-20: for `n` from the cursor up
to `size`, yield one record with that `id`. -/
def genLoop (size n : Nat) : List Item :=
  if h : n < size then { id := n } :: genLoop size (n + 1) else []
termination_by size - n
decreasing_by omega

/-- `generate(size)` (main.ts lines 12-20) as the full list of yielded
records. -/
def generate (size : Nat) : List Item :=
  genLoop size 0

/-- The result of the generator's k-th `next()` call: a yielded record while
`k < size`, and afterwards the distinct exhaustion signal (`none`, the
iterator result with `done: true`). -/
def genNext (size k : Nat) : Option Item :=
  (generate size)[k]?

/-- Fast path of `acquire` (main.ts lines 63-72 with the guard false):
`_running` is incremented, the caller is admitted at once, no suspension. -/
theorem gstep_acquire_fast (s : Semaphoreish) (c : Nat)
    (h : s.running < (s.size : Int)) :
    gstep s (.acquire c) =
      some { s with running := s.running + 1, admitted := s.admitted ++ [c] } := by
  simp [gstep, h]

/-- Slow path of `acquire` (main.ts lines 65-69): the caller is appended to
the tail of the resolver queue and suspends; `running` and the admission log
are unchanged. -/
theorem gstep_acquire_slow (s : Semaphoreish) (c : Nat)
    (h : (s.size : Int) ≤ s.running) :
    gstep s (.acquire c) =
      some { s with resolvers := s.resolvers ++ [c] } := by
  have h2 : ¬ s.running < (s.size : Int) := not_lt.mpr h
  simp [gstep, h2]

/-- `release` with a non-empty queue (main.ts lines 77-83): decrements
`running`, dequeues the oldest waiter and wakes it. -/
theorem gstep_release_wake (s : Semaphoreish) (w : Nat) (rest : List Nat)
    (h : s.resolvers = w :: rest) :
    gstep s .release =
      some { s with running := s.running - 1, resolvers := rest,
                    woken := s.woken ++ [w] } := by
  simp [gstep, h]

/-- `release` with an empty queue: just decrements `running` — there is no
check that `running` is positive. -/
theorem gstep_release_empty (s : Semaphoreish) (h : s.resolvers = []) :
    gstep s .release = some { s with running := s.running - 1 } := by
  simp [gstep, h]

/-- A woken waiter resumes: it increments `running` and its `acquire` call
returns (it is admitted).  Waiters resume in wake order. -/
theorem gstep_resume_wake (s : Semaphoreish) (w : Nat) (rest : List Nat)
    (h : s.woken = w :: rest) :
    gstep s .resume =
      some { s with running := s.running + 1, woken := rest,
                    admitted := s.admitted ++ [w] } := by
  simp [gstep, h]

/-- No continuation can run when nobody has been woken. -/
theorem gstep_resume_none (s : Semaphoreish) (h : s.woken = []) :
    gstep s .resume = none := by
  simp [gstep, h]

/-- `acquire` always succeeds as a call: the returned promise never rejects. -/
theorem gstep_acquire_isSome (s : Semaphoreish) (c : Nat) :
    (gstep s (.acquire c)).isSome := by
  by_cases h : s.running < (s.size : Int)
  · simp [gstep, h]
  · simp [gstep, h]

/-- Only a `release` step moves clients into the woken set. -/
theorem gstep_woken_grow (s : Semaphoreish) (a : GAct) (s2 : Semaphoreish)
    (h : gstep s a = some s2) (hlt : s.woken.length < s2.woken.length) :
    a = GAct.release := by
  cases a with
  | acquire c =>
    by_cases hc : s.running < (s.size : Int) <;>
      simp [gstep, hc] at h <;> subst h <;> simp at hlt
  | release => rfl
  | resume =>
    cases hw : s.woken with
    | nil => simp [gstep, hw] at h
    | cons w rest =>
      simp [gstep, hw] at h
      subst h
      simp [hw] at hlt

/-- Single-step preservation of the barge-free gate invariant
`running + #woken ≤ size` (and the capacity is never mutated). -/
theorem gstep_nb_inv (s : Semaphoreish) (a : GAct) (s2 : Semaphoreish)
    (hb : bargeFree s a = true) (h : gstep s a = some s2)
    (hinv : s.running + (s.woken.length : Int) ≤ (s.size : Int)) :
    s2.running + (s2.woken.length : Int) ≤ (s2.size : Int) ∧ s2.size = s.size := by
  cases a with
  | acquire c =>
    have hw : s.woken = [] := by
      simpa [bargeFree, List.isEmpty_iff] using hb
    by_cases hc : s.running < (s.size : Int)
    · simp [gstep, hc] at h
      subst h
      simp [hw] at hinv ⊢
      omega
    · simp [gstep, hc] at h
      subst h
      exact ⟨hinv, rfl⟩
  | release =>
    cases hr : s.resolvers with
    | nil =>
      simp [gstep, hr] at h
      subst h
      simp only []
      constructor
      · omega
      · trivial
    | cons w rest =>
      simp [gstep, hr] at h
      subst h
      simp only [List.length_append, List.length_cons, List.length_nil]
      constructor
      · push_cast
        omega
      · trivial
  | resume =>
    cases hw : s.woken with
    | nil => simp [gstep, hw] at h
    | cons w rest =>
      simp [gstep, hw] at h
      subst h
      simp [hw] at hinv
      constructor
      · push_cast at hinv ⊢
        omega
      · rfl

/-- The barge-free invariant holds along every barge-free run. -/
theorem grunNB_inv (acts : List GAct) (s s2 : Semaphoreish)
    (h : grunNB s acts = some s2)
    (hinv : s.running + (s.woken.length : Int) ≤ (s.size : Int)) :
    s2.running + (s2.woken.length : Int) ≤ (s2.size : Int) ∧ s2.size = s.size := by
  induction acts generalizing s with
  | nil =>
    simp [grunNB] at h
    subst h
    exact ⟨hinv, rfl⟩
  | cons a rest ih =>
    simp only [grunNB] at h
    by_cases hb : bargeFree s a = true
    · rw [if_pos hb] at h
      cases hs : gstep s a with
      | none => rw [hs] at h; exact absurd h (by simp)
      | some s1 =>
        rw [hs] at h
        have h1 := gstep_nb_inv s a s1 hb hs hinv
        have h2 := ih s1 h h1.1
        exact ⟨h2.1, h2.2.trans h1.2⟩
    · rw [if_neg hb] at h
      exact absurd h (by simp)

/-- C1, counterexample.  The capacity invariant fails as stated: with
capacity 1, client 1 acquires, client 2 suspends, client 1 releases (waking
client 2), then client 3 calls `acquire()` before client 2's continuation
runs — `_running` is `0 < 1`, so client 3 takes the fast path — and finally
client 2's continuation runs `this._running++` without re-checking capacity.
The gate ends with `running = 2 > 1 = capacity` and both clients 2 and 3
outstanding.  (Every step is a legal event-loop block: the fast path of
`acquire()` runs synchronously at the call, while a woken waiter resumes
only in a later microtask.) -/
theorem C1_counterexample :
    grun (Semaphoreish.init 1)
        [.acquire 1, .acquire 2, .release, .acquire 3, .resume] =
      some { running := 2, size := 1, resolvers := [], woken := [],
             admitted := [1, 3, 2] } ∧ (1 : Int) < 2 := by
  constructor
  · decide
  · decide

/-- C1, amended.  The capacity bound does hold for every barge-free
interleaving — every run in which no fresh `acquire()` starts while a woken
waiter has not yet resumed.  This discipline is exactly the one the
pipeline's stream driver imposes (a single serialized acquirer), so in every
run of the program as wired, `running` never exceeds the capacity. -/
theorem C1_capacity_barge_free (k : Nat) (acts : List GAct) (s : Semaphoreish)
    (h : grunNB (Semaphoreish.init k) acts = some s) :
    s.running ≤ (k : Int) := by
  have hinv := grunNB_inv acts (Semaphoreish.init k) s h
    (by simp [Semaphoreish.init])
  have h1 := hinv.1
  have h2 : s.size = k := hinv.2
  rw [h2] at h1
  have : (0 : Int) ≤ (s.woken.length : Int) := by positivity
  omega

/-- C1, witness: a concrete barge-free run of a capacity-2 gate with three
acquirers; the final state respects the bound. -/
theorem C1_witness :
    grunNB (Semaphoreish.init 2)
        [.acquire 5, .acquire 6, .acquire 7, .release, .resume, .release,
         .release] =
      some { running := 0, size := 2, resolvers := [], woken := [],
             admitted := [5, 6, 7] } ∧
    ({ running := 0, size := 2, resolvers := [], woken := [],
       admitted := [5, 6, 7] } : Semaphoreish).running ≤ (2 : Int) := by
  constructor
  · decide
  · exact C1_capacity_barge_free 2
      [.acquire 5, .acquire 6, .acquire 7, .release, .resume, .release,
       .release] _ (by decide)

/-- C3, counterexample.  FIFO admission fails as stated: with capacity 1,
client 10 acquires, client 20 suspends, a release wakes client 20, and then
client 30 arrives before client 20's continuation runs.  Client 30 takes the
fast path and is admitted immediately, so the admission log ends as
`[10, 30, 20]`: the late arrival 30 is admitted before the earlier-suspended
waiter 20, refuting the clause that no acquirer arriving after a release but
before the woken waiter resumes is admitted before an earlier-suspended
waiter. -/
theorem C3_counterexample :
    grun (Semaphoreish.init 1)
        [.acquire 10, .acquire 20, .release, .acquire 30, .resume] =
      some { running := 2, size := 1, resolvers := [], woken := [],
             admitted := [10, 30, 20] } := by
  decide

/-- C3, amended.  What the gate does guarantee: `release` always wakes the
oldest suspended acquirer; woken waiters are admitted in wake order (the
microtask queue is FIFO); an acquirer that finds the gate full is enqueued at
the tail and not admitted by that step; a suspended acquirer can only be
admitted through a `resume`, which is enabled only after a `release` has
woken it (only `release` grows the woken set).  The claim's further clause —
that an acquirer arriving between a release and the woken waiter's
resumption cannot overtake the waiter — is refuted by the counterexample. -/
theorem C3_fifo_wake_order (s : Semaphoreish) :
    (∀ w rest, s.resolvers = w :: rest →
      gstep s .release =
        some { s with running := s.running - 1, resolvers := rest,
                      woken := s.woken ++ [w] })
  ∧ (∀ w rest, s.woken = w :: rest →
      gstep s .resume =
        some { s with running := s.running + 1, woken := rest,
                      admitted := s.admitted ++ [w] })
  ∧ (∀ c, (s.size : Int) ≤ s.running →
      gstep s (.acquire c) = some { s with resolvers := s.resolvers ++ [c] })
  ∧ (s.woken = [] → gstep s .resume = none)
  ∧ (∀ a s2, gstep s a = some s2 → s.woken.length < s2.woken.length →
      a = GAct.release) :=
  ⟨fun w rest h => gstep_release_wake s w rest h,
   fun w rest h => gstep_resume_wake s w rest h,
   fun c h => gstep_acquire_slow s c h,
   fun h => gstep_resume_none s h,
   fun a s2 h hlt => gstep_woken_grow s a s2 h hlt⟩

/-- C3, witness: on a full capacity-1 gate with client 4 suspended, a release
dequeues and wakes exactly that oldest waiter. -/
theorem C3_witness :
    gstep ({ running := 1, size := 1, resolvers := [4], woken := [],
             admitted := [9] } : Semaphoreish) .release =
      some { running := 0, size := 1, resolvers := [], woken := [4],
             admitted := [9] } :=
  (C3_fifo_wake_order
    { running := 1, size := 1, resolvers := [4], woken := [],
      admitted := [9] }).1 4 [] rfl

/-- C5.  The `acquire` contract of main.ts lines 63-72: below capacity the
call increments `running` and returns at once (queue untouched, caller
admitted); at or above capacity the caller is appended to the FIFO queue and
not admitted by the call; the call itself always succeeds (the promise never
rejects); a release wakes the oldest waiter, and upon resuming the woken
waiter increments `running` and its `acquire` returns. -/
theorem C5_acquire_contract (s : Semaphoreish) (c : Nat) :
    (s.running < (s.size : Int) →
      gstep s (.acquire c) =
        some { s with running := s.running + 1,
                      admitted := s.admitted ++ [c] })
  ∧ ((s.size : Int) ≤ s.running →
      gstep s (.acquire c) = some { s with resolvers := s.resolvers ++ [c] })
  ∧ (gstep s (.acquire c)).isSome = true
  ∧ (∀ w rest, s.resolvers = w :: rest →
      gstep s .release =
        some { s with running := s.running - 1, resolvers := rest,
                      woken := s.woken ++ [w] })
  ∧ (∀ w rest, s.woken = w :: rest →
      gstep s .resume =
        some { s with running := s.running + 1, woken := rest,
                      admitted := s.admitted ++ [w] }) :=
  ⟨fun h => gstep_acquire_fast s c h,
   fun h => gstep_acquire_slow s c h,
   gstep_acquire_isSome s c,
   fun w rest h => gstep_release_wake s w rest h,
   fun w rest h => gstep_resume_wake s w rest h⟩

/-- C5, witness: on a fresh capacity-3 gate, client 7 is admitted
immediately. -/
theorem C5_witness :
    gstep (Semaphoreish.init 3) (.acquire 7) =
      some { running := 1, size := 3, resolvers := [], woken := [],
             admitted := [7] } :=
  (C5_acquire_contract (Semaphoreish.init 3) 7).1 (by decide)

/-- C8, counterexample.  A `release` without any matching `acquire` is
silently tolerated: on a fresh gate it succeeds and drives `running` to -1;
no check of the precondition exists and nothing raises. -/
theorem C8_counterexample :
    gstep (Semaphoreish.init 3) .release =
      some { running := -1, size := 3, resolvers := [], woken := [],
             admitted := [] } ∧ (-1 : Int) < 0 := by
  constructor
  · decide
  · decide

/-- C8, amended.  `release()` (main.ts lines 77-83) is unchecked: from every
state it succeeds and unconditionally decrements `running`, in particular
driving it below zero when no matching `acquire` happened; the misuse is not
detected. -/
theorem C8_release_unchecked (s : Semaphoreish) :
    ∃ s2, gstep s .release = some s2 ∧ s2.running = s.running - 1 ∧
      s2.size = s.size := by
  cases hr : s.resolvers with
  | nil => exact ⟨_, gstep_release_empty s hr, rfl, rfl⟩
  | cons w rest => exact ⟨_, gstep_release_wake s w rest hr, rfl, rfl⟩

/-- `_checkDone` only touches the completion counter, so it preserves the
stage invariant. -/
theorem inv_checkDone (items : List Nat) (s : CT) (h : Inv items s) :
    Inv items (checkDone s) := by
  unfold checkDone
  split
  · obtain ⟨h1, h2, h3, h4⟩ := h
    exact ⟨h1, h2, h3, h4⟩
  · exact h

/-- The invariant holds initially. -/
theorem inv_init (size : Nat) (items : List Nat) : Inv items (CT.init size items) := by
  refine ⟨?_, ?_, ?_, ?_⟩ <;> simp [CT.init, itemsOf]

/-- One step of the stage preserves the invariant. -/
theorem tstep_inv (items : List Nat) (s : CT) (a : TAct) (s2 : CT)
    (h : tstep s a = some s2) (hinv : Inv items s) : Inv items s2 := by
  obtain ⟨hperm, hacc, hrun, hser⟩ := hinv
  cases a with
  | start =>
    cases hp : s.pending with
    | nil => simp [tstep, hp] at h
    | cons x rest =>
      simp only [tstep, hp] at h
      by_cases hc : s.acquiredNoCb = none ∧ s.resolvers = [] ∧ s.woken = []
      · rw [if_pos hc] at h
        obtain ⟨ha, hr, hw⟩ := hc
        by_cases hlt : s.running < (s.size : Int)
        · rw [if_pos hlt] at h
          simp only [Option.some.injEq] at h
          subst h
          refine ⟨?_, ?_, ?_, ?_⟩
          · refine (List.perm_iff_count.mpr ?_).trans hperm
            intro b
            simp [itemsOf, hp, ha, hr, hw, List.count_append, List.count_cons]
            ring
          · refine (List.perm_iff_count.mpr ?_).trans hacc
            intro b
            simp [hp, List.count_append, List.count_cons]
          · simp only [ha, Option.toList_none, List.length_nil] at hrun
            simp only [Option.toList_some, List.length_cons, List.length_nil]
            push_cast at hrun ⊢
            omega
          · simp [hr, hw]
        · rw [if_neg hlt] at h
          simp only [Option.some.injEq] at h
          subst h
          refine ⟨?_, ?_, ?_, ?_⟩
          · refine (List.perm_iff_count.mpr ?_).trans hperm
            intro b
            simp [itemsOf, hp, ha, hr, hw, List.count_append, List.count_cons]
            ring
          · refine (List.perm_iff_count.mpr ?_).trans hacc
            intro b
            simp [hp, List.count_append, List.count_cons]
          · simpa using hrun
          · simp [hr, hw, ha]
      · rw [if_neg hc] at h
        exact absurd h (by simp)
  | resumeGate =>
    cases hw : s.woken with
    | nil => simp [tstep, hw] at h
    | cons w rest =>
      simp only [tstep, hw] at h
      simp only [Option.some.injEq] at h
      subst h
      simp only [hw, List.length_cons] at hser
      have hr : s.resolvers = [] := List.length_eq_zero.mp (by omega)
      have hrest : rest = [] := List.length_eq_zero.mp (by omega)
      have ha : s.acquiredNoCb = none := by
        cases hacq : s.acquiredNoCb with
        | none => rfl
        | some y => rw [hacq] at hser; simp at hser
      refine ⟨?_, ?_, ?_, ?_⟩
      · refine (List.perm_iff_count.mpr ?_).trans hperm
        intro b
        simp [itemsOf, hw, hrest, ha, List.count_append, List.count_cons]
      · exact hacc
      · simp only [ha, Option.toList_none, List.length_nil] at hrun
        simp only [Option.toList_some, List.length_cons, List.length_nil]
        push_cast at hrun ⊢
        omega
      · simp [hr, hrest]
  | cb =>
    cases ha : s.acquiredNoCb with
    | none => simp [tstep, ha] at h
    | some x =>
      simp only [tstep, ha] at h
      simp only [Option.some.injEq] at h
      subst h
      refine ⟨?_, ?_, ?_, ?_⟩
      · refine (List.perm_iff_count.mpr ?_).trans hperm
        intro b
        simp [itemsOf, ha, List.count_append, List.count_cons]
        ring
      · exact hacc
      · simp only [ha, Option.toList_some, List.length_cons, List.length_nil]
          at hrun
        simp only [Option.toList_none, List.length_nil, List.length_append,
          List.length_cons]
        push_cast at hrun ⊢
        omega
      · simp only [Option.toList_none, List.length_nil] at hser ⊢
        omega
  | settle x emitNow =>
    simp only [tstep] at h
    by_cases hx : x ∈ s.working
    · rw [if_pos hx] at h
      have hxcount : 0 < List.count x s.working := List.count_pos_iff.mpr hx
      have herase : (s.working.erase x).length = s.working.length - 1 :=
        List.length_erase_of_mem hx
      have hwlen : 0 < s.working.length := List.length_pos_of_mem hx
      cases emitNow with
      | true =>
        by_cases hbuf : s.buffer = []
        · rw [if_pos hbuf] at h
          simp only [if_true, Option.some.injEq] at h
          subst h
          refine inv_checkDone items _ ?_
          unfold dataEvent
          refine inv_checkDone items _ ?_
          unfold ctRelease
          cases hres : s.resolvers with
          | nil =>
            refine ⟨?_, ?_, ?_, ?_⟩
            · refine (List.perm_iff_count.mpr ?_).trans hperm
              intro b
              by_cases hbx : x = b
              · subst hbx
                simp [itemsOf, hbuf, hres, List.count_append, List.count_cons,
                  List.count_erase]
                omega
              · simp [itemsOf, hbuf, hres, List.count_append, List.count_cons,
                  List.count_erase, hbx]
            · exact hacc
            · simp only [hbuf, List.length_nil] at hrun
              simp only [List.length_append, List.length_cons, List.length_nil,
                hbuf]
              push_cast at hrun ⊢
              omega
            · simpa [hres] using hser
          | cons w wrest =>
            refine ⟨?_, ?_, ?_, ?_⟩
            · refine (List.perm_iff_count.mpr ?_).trans hperm
              intro b
              by_cases hbx : x = b
              · subst hbx
                simp [itemsOf, hbuf, hres, List.count_append, List.count_cons,
                  List.count_erase]
                omega
              · simp [itemsOf, hbuf, hres, List.count_append, List.count_cons,
                  List.count_erase, hbx]
                ring
            · exact hacc
            · simp only [hbuf, List.length_nil] at hrun
              simp only [List.length_append, List.length_cons, List.length_nil,
                hbuf]
              push_cast at hrun ⊢
              omega
            · simp only [hres, List.length_cons, List.length_append,
                List.length_nil] at hser ⊢
              omega
        · rw [if_neg hbuf] at h
          exact absurd h (by simp)
      | false =>
        rw [if_neg (by simp)] at h
        simp only [Option.some.injEq] at h
        subst h
        refine inv_checkDone items _ ?_
        refine ⟨?_, ?_, ?_, ?_⟩
        · refine (List.perm_iff_count.mpr ?_).trans hperm
          intro b
          by_cases hbx : x = b
          · subst hbx
            simp [itemsOf, List.count_append, List.count_cons,
              List.count_erase]
            omega
          · simp [itemsOf, List.count_append, List.count_cons,
              List.count_erase, hbx]
        · exact hacc
        · simp only [List.length_append, List.length_cons, List.length_nil]
          push_cast at hrun ⊢
          omega
        · exact hser
    · rw [if_neg hx] at h
      exact absurd h (by simp)
  | flow =>
    cases hb : s.buffer with
    | nil => simp [tstep, hb] at h
    | cons x rest =>
      simp only [tstep, hb] at h
      simp only [Option.some.injEq] at h
      subst h
      unfold dataEvent
      refine inv_checkDone items _ ?_
      unfold ctRelease
      cases hres : s.resolvers with
      | nil =>
        refine ⟨?_, ?_, ?_, ?_⟩
        · refine (List.perm_iff_count.mpr ?_).trans hperm
          intro b
          simp [itemsOf, hb, hres, List.count_append, List.count_cons]
          ring
        · exact hacc
        · simp only [hb, List.length_cons] at hrun
          push_cast at hrun ⊢
          omega
        · simpa [hres] using hser
      | cons w wrest =>
        refine ⟨?_, ?_, ?_, ?_⟩
        · refine (List.perm_iff_count.mpr ?_).trans hperm
          intro b
          simp [itemsOf, hb, hres, List.count_append, List.count_cons]
          ring
        · exact hacc
        · simp only [hb, List.length_cons] at hrun
          push_cast at hrun ⊢
          omega
        · simp only [hres, List.length_cons, List.length_append,
            List.length_nil] at hser ⊢
          omega
  | finalize =>
    simp only [tstep] at h
    by_cases hc : s.pending = [] ∧ s.acquiredNoCb = none ∧ s.resolvers = [] ∧
        s.woken = [] ∧ s.onFinalSet = false
    · rw [if_pos hc] at h
      simp only [Option.some.injEq] at h
      subst h
      exact inv_checkDone items _ ⟨hperm, hacc, hrun, hser⟩
    · rw [if_neg hc] at h
      exact absurd h (by simp)

/-- The invariant holds at every reachable state. -/
theorem tRun_inv (items : List Nat) (acts : List TAct) (s s2 : CT)
    (h : tRun s acts = some s2) (hinv : Inv items s) : Inv items s2 := by
  induction acts generalizing s with
  | nil =>
    simp [tRun] at h
    subst h
    exact hinv
  | cons a rest ih =>
    simp only [tRun] at h
    cases hs : tstep s a with
    | none => rw [hs] at h; exact absurd h (by simp)
    | some s1 =>
      rw [hs] at h
      exact ih s1 h (tstep_inv items s a s1 hs hinv)

/-- C2: the completion callback can fire twice.  Run the stage on one chunk
with capacity 1: the chunk is accepted and its callback called, the writable
side finishes so `_final` traps `onFinal` while the worker is outstanding,
and then the worker settles while the stream is flowing with an empty
readable buffer.  `push` then emits a synchronous `data` event, whose handler
runs `release()` and `_checkDone()` — `running` is now `0` and `onFinal` is
set, so the callback fires — and immediately afterwards `_transform` runs its
own `this._checkDone()` (main.ts line 123); since `onFinal` was never
cleared and `running` is still `0`, the callback fires a second time:
`finalCalls = 2`. -/
theorem C2_double_completion :
    tRun (CT.init 1 [0]) [.start, .cb, .finalize, .settle 0 true] =
      some { size := 1, running := 0, resolvers := [], woken := [],
             pending := [], acquiredNoCb := none, working := [], buffer := [],
             delivered := [0], accepted := [0], onFinalSet := true,
             finalCalls := 2 } ∧ (2 : Nat) ≠ 1 := by
  exact ⟨by decide, by decide⟩

/-- C4.  Conservation: on every run of the stage that completes (no chunk
left anywhere but `delivered`), the delivered chunks are a permutation of
the source items — the stage emits exactly one enriched chunk per accepted
chunk, with no duplication and no drops — the accepted chunks are likewise a
permutation of the source items, the delivered count equals the accepted
count, and (for a duplicate-free source) the piped sink receives each chunk
exactly once. -/
theorem C4_conservation (size : Nat) (items : List Nat) (acts : List TAct)
    (s : CT) (hnd : items.Nodup)
    (hrun : tRun (CT.init size items) acts = some s)
    (hdone : s.pending = [] ∧ s.acquiredNoCb = none ∧ s.resolvers = [] ∧
      s.woken = [] ∧ s.working = [] ∧ s.buffer = []) :
    List.Perm s.delivered items ∧ List.Perm s.accepted items ∧
      s.delivered.length = s.accepted.length ∧ s.delivered.Nodup := by
  have hinv := tRun_inv items acts (CT.init size items) s hrun
    (inv_init size items)
  obtain ⟨h1, h2, _, _⟩ := hinv
  obtain ⟨hp, ha, hr, hw, hwk, hb⟩ := hdone
  rw [itemsOf, hp, ha, hr, hw, hwk, hb] at h1
  simp only [List.nil_append, Option.toList_none] at h1
  rw [hp] at h2
  simp only [List.append_nil] at h2
  exact ⟨h1, h2, h1.length_eq.trans h2.length_eq.symm, h1.symm.nodup hnd⟩

/-- C4, witness: a capacity-1 stage over source `[3, 4]`, on a schedule that
exercises gate waiting, wake, resume, buffering and flush; the completed run
delivers exactly `[3, 4]`. -/
theorem C4_witness :
    tRun (CT.init 1 [3, 4]) [.start, .cb, .start, .settle 3 true, .resumeGate,
        .cb, .settle 4 false, .finalize, .flow] = some c4FinalState ∧
    (List.Perm c4FinalState.delivered [3, 4] ∧
      List.Perm c4FinalState.accepted [3, 4] ∧
      c4FinalState.delivered.length = c4FinalState.accepted.length ∧
      c4FinalState.delivered.Nodup) :=
  ⟨by decide,
   C4_conservation 1 [3, 4]
     [.start, .cb, .start, .settle 3 true, .resumeGate, .cb, .settle 4 false,
      .finalize, .flow] c4FinalState (by decide) (by decide) (by decide)⟩

/-- C6, counterexample.  The release for a chunk is not tied to its worker
settling: with capacity 1 and one chunk, after the worker settles while the
readable side is not flowing (downstream backpressure), the chunk has been
pushed (`buffer = [0]`) yet `running` is still `1` — the gate has not been
released.  Only the later `flow` step — the `data` event that forwards the
chunk downstream — performs the release (`running = 0`). -/
theorem C6_counterexample :
    tRun (CT.init 1 [0]) [.start, .cb, .settle 0 false] =
      some { size := 1, running := 1, resolvers := [], woken := [],
             pending := [], acquiredNoCb := none, working := [], buffer := [0],
             delivered := [], accepted := [0], onFinalSet := false,
             finalCalls := 0 } ∧
    tRun (CT.init 1 [0]) [.start, .cb, .settle 0 false, .flow] =
      some { size := 1, running := 0, resolvers := [], woken := [],
             pending := [], acquiredNoCb := none, working := [], buffer := [],
             delivered := [0], accepted := [0], onFinalSet := false,
             finalCalls := 0 } := by
  exact ⟨by decide, by decide⟩

/-- C6, amended.  What holds instead: at every reachable state the gate
counter equals the number of chunks past their `acquire` and not yet past
their `data` event (awaiting callback, worker outstanding, or sitting in the
readable buffer).  The release for a chunk therefore happens exactly at its
`data` event — the moment it is handed downstream — which coincides with
worker settlement only when `push` emits synchronously (flowing stream,
empty buffer); under downstream backpressure it is deferred. -/
theorem C6_release_at_delivery (size : Nat) (items : List Nat)
    (acts : List TAct) (s : CT)
    (h : tRun (CT.init size items) acts = some s) :
    s.running = ((s.acquiredNoCb.toList.length + s.working.length +
      s.buffer.length : Nat) : Int) :=
  (tRun_inv items acts (CT.init size items) s h (inv_init size items)).2.2.1

/-- The buffered mid-run state used to witness the amended release-timing
theorem. -/
def c6BufferedState : CT :=
  { size := 1, running := 1, resolvers := [], woken := [],
    pending := [], acquiredNoCb := none, working := [], buffer := [0],
    delivered := [], accepted := [0], onFinalSet := false,
    finalCalls := 0 }

/-- C6, witness: the buffered state above satisfies the amended accounting
(`running = 1` with one chunk in the buffer and none working). -/
theorem C6_witness :
    c6BufferedState.running =
      ((c6BufferedState.acquiredNoCb.toList.length +
        c6BufferedState.working.length +
        c6BufferedState.buffer.length : Nat) : Int) :=
  C6_release_at_delivery 1 [0] [.start, .cb, .settle 0 false]
    c6BufferedState (by decide)

/-- `_checkDone` leaves every field but the completion counter unchanged. -/
@[simp] theorem checkDone_working (s : CT) : (checkDone s).working = s.working := by
  unfold checkDone; split <;> rfl

@[simp] theorem checkDone_buffer (s : CT) : (checkDone s).buffer = s.buffer := by
  unfold checkDone; split <;> rfl

@[simp] theorem checkDone_delivered (s : CT) :
    (checkDone s).delivered = s.delivered := by
  unfold checkDone; split <;> rfl

@[simp] theorem checkDone_acquiredNoCb (s : CT) :
    (checkDone s).acquiredNoCb = s.acquiredNoCb := by
  unfold checkDone; split <;> rfl

@[simp] theorem checkDone_pending (s : CT) : (checkDone s).pending = s.pending := by
  unfold checkDone; split <;> rfl

/-- The gate release touches only the gate fields. -/
@[simp] theorem ctRelease_working (s : CT) : (ctRelease s).working = s.working := by
  unfold ctRelease; split <;> rfl

@[simp] theorem ctRelease_buffer (s : CT) : (ctRelease s).buffer = s.buffer := by
  unfold ctRelease; split <;> rfl

@[simp] theorem ctRelease_delivered (s : CT) :
    (ctRelease s).delivered = s.delivered := by
  unfold ctRelease; split <;> rfl

@[simp] theorem ctRelease_acquiredNoCb (s : CT) :
    (ctRelease s).acquiredNoCb = s.acquiredNoCb := by
  unfold ctRelease; split <;> rfl

@[simp] theorem ctRelease_pending (s : CT) : (ctRelease s).pending = s.pending := by
  unfold ctRelease; split <;> rfl

/-- A `data` event appends the chunk to the delivered list and otherwise
only touches the gate fields and the completion counter. -/
@[simp] theorem dataEvent_working (s : CT) (x : Nat) :
    (dataEvent s x).working = s.working := by
  unfold dataEvent; simp

@[simp] theorem dataEvent_buffer (s : CT) (x : Nat) :
    (dataEvent s x).buffer = s.buffer := by
  unfold dataEvent; simp

@[simp] theorem dataEvent_delivered (s : CT) (x : Nat) :
    (dataEvent s x).delivered = s.delivered ++ [x] := by
  unfold dataEvent; simp

@[simp] theorem dataEvent_acquiredNoCb (s : CT) (x : Nat) :
    (dataEvent s x).acquiredNoCb = s.acquiredNoCb := by
  unfold dataEvent; simp

@[simp] theorem dataEvent_pending (s : CT) (x : Nat) :
    (dataEvent s x).pending = s.pending := by
  unfold dataEvent; simp

/-- C7.  Per-chunk event order inside `_transform` (main.ts lines 114-124).
The four events of a chunk's life are characterised by their enabling
preconditions, which forces the order the claim states:

* a chunk's worker starts (the chunk enters `working`) only at the `cb` step
  — the stream callback — and only for the chunk whose `acquire()` has
  already resolved (`acquiredNoCb = some x`): the callback is never invoked
  before the acquire resolves, and the worker is awaited after the callback
  has returned control to the driver;
* a chunk's `acquire` resolves (`acquiredNoCb` becomes `some x`) only at
  acceptance below capacity (fast path) or by being woken from the gate
  queue;
* a chunk is pushed (enters `buffer` or `delivered`) only at its own
  `settle` step — the step in which its worker settles — and only from
  `working`: the push never happens before the worker's result is available;
* the `cb` step does exactly this: it clears the pre-callback slot and
  starts the worker. -/
theorem C7_transform_order (s : CT) (a : TAct) (s2 : CT) (x : Nat)
    (h : tstep s a = some s2) :
    (x ∉ s.working → x ∈ s2.working →
      a = TAct.cb ∧ s.acquiredNoCb = some x) ∧
    (s.acquiredNoCb ≠ some x → s2.acquiredNoCb = some x →
      (a = TAct.start ∧ s.running < (s.size : Int) ∧
        ∃ rest, s.pending = x :: rest) ∨
      (a = TAct.resumeGate ∧ ∃ rest, s.woken = x :: rest)) ∧
    ((x ∈ s2.buffer ∨ x ∈ s2.delivered) → x ∉ s.buffer → x ∉ s.delivered →
      (∃ b, a = TAct.settle x b) ∧ x ∈ s.working) ∧
    (a = TAct.cb → s.acquiredNoCb = some x →
      s2 = { s with acquiredNoCb := none, working := s.working ++ [x] }) := by
  cases a with
  | start =>
    cases hp : s.pending with
    | nil => simp [tstep, hp] at h
    | cons y rest =>
      simp only [tstep, hp] at h
      by_cases hc : s.acquiredNoCb = none ∧ s.resolvers = [] ∧ s.woken = []
      · rw [if_pos hc] at h
        by_cases hlt : s.running < (s.size : Int)
        · rw [if_pos hlt] at h
          simp only [Option.some.injEq] at h
          subst h
          refine ⟨fun h1 h2 => absurd h2 h1, fun h1 h2 => ?_, ?_, by simp⟩
          · simp only [Option.some.injEq] at h2
            subst h2
            exact Or.inl ⟨rfl, hlt, rest, rfl⟩
          · intro hm hb hd
            rcases hm with hm | hm
            · exact absurd hm hb
            · exact absurd hm hd
        · rw [if_neg hlt] at h
          simp only [Option.some.injEq] at h
          subst h
          refine ⟨fun h1 h2 => absurd h2 h1, fun h1 h2 => absurd h2 h1, ?_,
            by simp⟩
          intro hm hb hd
          rcases hm with hm | hm
          · exact absurd hm hb
          · exact absurd hm hd
      · rw [if_neg hc] at h
        exact absurd h (by simp)
  | resumeGate =>
    cases hw : s.woken with
    | nil => simp [tstep, hw] at h
    | cons w rest =>
      simp only [tstep, hw] at h
      simp only [Option.some.injEq] at h
      subst h
      refine ⟨fun h1 h2 => absurd h2 h1, fun h1 h2 => ?_, ?_, by simp⟩
      · simp only [Option.some.injEq] at h2
        subst h2
        exact Or.inr ⟨rfl, rest, rfl⟩
      · intro hm hb hd
        rcases hm with hm | hm
        · exact absurd hm hb
        · exact absurd hm hd
  | cb =>
    cases ha : s.acquiredNoCb with
    | none => simp [tstep, ha] at h
    | some y =>
      simp only [tstep, ha] at h
      simp only [Option.some.injEq] at h
      subst h
      refine ⟨?_, fun h1 h2 => absurd h2 (by simp), ?_, ?_⟩
      · intro h1 h2
        simp only [List.mem_append, List.mem_singleton] at h2
        rcases h2 with h2 | h2
        · exact absurd h2 h1
        · exact ⟨rfl, by rw [h2]⟩
      · intro hm hb hd
        rcases hm with hm | hm
        · exact absurd hm hb
        · exact absurd hm hd
      · intro _ hax
        simp only [Option.some.injEq] at hax
        subst hax
        rfl
  | settle y emitNow =>
    simp only [tstep] at h
    by_cases hy : y ∈ s.working
    · rw [if_pos hy] at h
      cases emitNow with
      | true =>
        by_cases hbuf : s.buffer = []
        · rw [if_pos hbuf] at h
          simp only [if_true, Option.some.injEq] at h
          subst h
          refine ⟨?_, ?_, ?_, ?_⟩
          · intro h1 h2
            simp only [checkDone_working, dataEvent_working] at h2
            exact absurd (List.mem_of_mem_erase h2) h1
          · intro h1 h2
            simp only [checkDone_acquiredNoCb, dataEvent_acquiredNoCb] at h2
            exact absurd h2 h1
          · intro hm hb2 hd
            simp only [checkDone_buffer, dataEvent_buffer, checkDone_delivered,
              dataEvent_delivered, hbuf, List.mem_append,
              List.mem_singleton] at hm
            rcases hm with hm | hm | hm
            · exact absurd hm (by simp)
            · exact absurd hm hd
            · subst hm
              exact ⟨⟨true, rfl⟩, hy⟩
          · intro hcb
            exact absurd hcb (by simp)
        · rw [if_neg hbuf] at h
          exact absurd h (by simp)
      | false =>
        rw [if_neg (by simp)] at h
        simp only [Option.some.injEq] at h
        subst h
        refine ⟨?_, ?_, ?_, ?_⟩
        · intro h1 h2
          simp only [checkDone_working] at h2
          exact absurd (List.mem_of_mem_erase h2) h1
        · intro h1 h2
          simp only [checkDone_acquiredNoCb] at h2
          exact absurd h2 h1
        · intro hm hb2 hd
          simp only [checkDone_buffer, checkDone_delivered, List.mem_append,
            List.mem_singleton] at hm
          rcases hm with (hm | hm) | hm
          · exact absurd hm hb2
          · subst hm
            exact ⟨⟨false, rfl⟩, hy⟩
          · exact absurd hm hd
        · intro hcb
          exact absurd hcb (by simp)
    · rw [if_neg hy] at h
      exact absurd h (by simp)
  | flow =>
    cases hb : s.buffer with
    | nil => simp [tstep, hb] at h
    | cons y rest =>
      simp only [tstep, hb] at h
      simp only [Option.some.injEq] at h
      subst h
      refine ⟨?_, ?_, ?_, ?_⟩
      · intro h1 h2
        simp only [dataEvent_working] at h2
        exact absurd h2 h1
      · intro h1 h2
        simp only [dataEvent_acquiredNoCb] at h2
        exact absurd h2 h1
      · intro hm hb2 hd
        exfalso
        simp only [dataEvent_buffer, dataEvent_delivered, List.mem_append,
          List.mem_singleton] at hm
        rcases hm with hm | hm | hm
        · exact hb2 (List.mem_cons_of_mem y hm)
        · exact hd hm
        · subst hm
          exact hb2 (List.mem_cons_self x rest)
      · intro hcb
        exact absurd hcb (by simp)
  | finalize =>
    simp only [tstep] at h
    by_cases hc : s.pending = [] ∧ s.acquiredNoCb = none ∧ s.resolvers = [] ∧
        s.woken = [] ∧ s.onFinalSet = false
    · rw [if_pos hc] at h
      simp only [Option.some.injEq] at h
      subst h
      refine ⟨?_, ?_, ?_, ?_⟩
      · intro h1 h2
        simp only [checkDone_working] at h2
        exact absurd h2 h1
      · intro h1 h2
        simp only [checkDone_acquiredNoCb] at h2
        exact absurd h2 h1
      · intro hm hb2 hd
        simp only [checkDone_buffer, checkDone_delivered] at hm
        rcases hm with hm | hm
        · exact absurd hm hb2
        · exact absurd hm hd
      · intro hcb
        exact absurd hcb (by simp)
    · rw [if_neg hc] at h
      exact absurd h (by simp)

/-- C7, witness: from `c7Pre` the `cb` step runs chunk 5's callback and
starts its worker; the worker-start characterisation applies to it. -/
theorem C7_witness :
    tstep c7Pre TAct.cb = some c7Post ∧
    (5 ∉ c7Pre.working → 5 ∈ c7Post.working →
      TAct.cb = TAct.cb ∧ c7Pre.acquiredNoCb = some 5) :=
  ⟨by decide, (C7_transform_order c7Pre TAct.cb c7Post 5 (by decide)).1⟩

/-- Lookup on an enriched chunk: `changedAt` is the worker's result, every
other property reads exactly as in the accepted chunk. -/
theorem getField_enrich (chunk : List (String × Int)) (w : Int)
    (key : String) :
    getField (enrich chunk w) key =
      if key = "changedAt" then some w else getField chunk key := by
  induction chunk with
  | nil =>
    by_cases hk : key = "changedAt"
    · simp [enrich, getField, hk]
    · simp [enrich, getField, hk, Ne.symm hk]
  | cons p t ih =>
    obtain ⟨k, v⟩ := p
    by_cases hk : key = "changedAt"
    · simp only [enrich, List.cons_append, getField, List.append_eq] at ih ⊢
      rw [ih]
      simp [hk]
    · simp only [enrich, List.cons_append, getField, List.append_eq] at ih ⊢
      rw [ih]
      simp [hk]

/-- C9.  Frame condition of the enrichment (main.ts line 122): the emitted
chunk is the accepted chunk plus the single field `changedAt` carrying the
worker's result; every other field — in the pipeline the chunks are
`\x7b id: n \x7d`, so in particular `id` — is present and unchanged. -/
theorem C9_enrichment_frame (chunk : List (String × Int)) (w : Int)
    (key : String) (n : Int) :
    (getField (enrich chunk w) key =
      if key = "changedAt" then some w else getField chunk key) ∧
    enrich [("id", n)] w = [("id", n), ("changedAt", w)] ∧
    getField (enrich [("id", n)] w) "id" = some n ∧
    getField (enrich [("id", n)] w) "changedAt" = some w := by
  refine ⟨getField_enrich chunk w key, by simp [enrich], ?_, ?_⟩
  · rw [getField_enrich, if_neg (by decide)]
    simp [getField]
  · rw [getField_enrich, if_pos rfl]

/-- Closed form of the generator loop. -/
theorem genLoop_eq (k : Nat) :
    ∀ size n, size - n = k →
      genLoop size n = (List.range k).map (fun i => { id := n + i }) := by
  induction k with
  | zero =>
    intro size n h
    have hn : ¬ n < size := by omega
    rw [genLoop]
    simp [hn]
  | succ k ih =>
    intro size n h
    have hn : n < size := by omega
    rw [genLoop]
    simp only [hn, dif_pos, List.range_succ_eq_map, List.map_cons,
      List.map_map]
    rw [ih size (n + 1) (by omega)]
    congr 1
    simp only [List.map_inj_left, Function.comp_apply, Item.mk.injEq,
      List.mem_range]
    intro a ha
    omega

/-- `generate` as a map over `range`. -/
theorem generate_eq (size : Nat) :
    generate size = (List.range size).map (fun i => { id := i }) := by
  have h := genLoop_eq size size 0 (by omega)
  rw [generate, h]
  simp

/-- C10.  `generate(size)` yields exactly `size` records; the k-th `next()`
yields the record with `id = k` for `k < size` and the distinct exhaustion
signal afterwards; and the yielded ids are strictly increasing. -/
theorem C10_generate (size : Nat) :
    (generate size).length = size ∧
    (∀ k, genNext size k =
      if k < size then some { id := k } else none) ∧
    (generate size).Pairwise (fun a b => a.id < b.id) := by
  have hg := generate_eq size
  refine ⟨by simp [hg], ?_, ?_⟩
  · intro k
    by_cases hk : k < size
    · simp [genNext, hg, List.getElem?_map, List.getElem?_range hk, hk]
    · rw [genNext, hg, if_neg hk]
      exact List.getElem?_eq_none (by simp; omega)
  · rw [hg, List.pairwise_map]
    exact List.pairwise_lt_range size

end Backpressure
